import Mathlib

/-!
Shallow embedding of the Valle repository's mask construction, sampling,
beam-selection and collation routines (src/valle/models/utils.py and
src/valle/collate.py), together with theorems checking the repository's
specification against this embedding.

Modelling conventions:
* torch boolean tensors of rank 2 are `List (List Bool)` (rows of columns);
  integer tensors of rank 1 are `List ℤ`; float tensors of rank 1/2 are
  `List ℚ` / `List (List ℚ)` with rationals standing for exact float values.
* `-inf` produced by filtering is the extra point `EF.ninf`; IEEE division
  of a finite float by zero is modelled by `FVal` (with `nan`, `ninf`,
  `pinf`).
* the transcendental `exp` used by softmax, and `log` used by log-softmax,
  are explicit function parameters `e` and `lg` (floats approximate them;
  the theorems only use positivity of `e`), so every definition stays
  computable.
* the ambient random draw of `torch.multinomial` is an explicit per-row
  parameter `u` with the contract `0 ≤ u < 1` of a uniform draw; sampling
  is by inverse transform over the cumulative distribution, and
  `torch.sort` (tie order unspecified by torch) is determinised as the
  stable `List.insertionSort`.
-/

/-- Extended float: a finite rational or `-inf` (the `filter_value` used by
top-k/top-p filtering). -/
inductive EF where
  | ninf : EF
  | val : ℚ → EF
deriving DecidableEq, Repr

/-- Weight that softmax assigns before normalisation: `exp` of a finite
value, `0` for `-inf`. The function `e` stands for the exponential. -/
def wE (e : ℚ → ℚ) : EF → ℚ
  | EF.ninf => 0
  | EF.val q => e q

/-- Comparison used to sort `EF` values ascending (`-inf` first). -/
def efLe : EF → EF → Bool
  | EF.ninf, _ => true
  | EF.val _, EF.ninf => false
  | EF.val a, EF.val b => decide (a ≤ b)

/-- Embedding of `torch.zeros((r, c), dtype=torch.bool)`. -/
def zerosM (r c : ℕ) : List (List Bool) := List.replicate r (List.replicate c false)

/-- Embedding of `torch.ones((r, c), dtype=torch.bool)`. -/
def onesM (r c : ℕ) : List (List Bool) := List.replicate r (List.replicate c true)

/-- Embedding of `torch.triu(torch.ones((n, n), dtype=torch.bool), diagonal=d)`:
entry `(r, c)` is kept (true) iff `c ≥ r + d`. -/
def triuOnes (n : ℕ) (d : ℤ) : List (List Bool) :=
  (List.range n).map (fun (r : ℕ) => (List.range n).map (fun (c : ℕ) => decide ((r : ℤ) + d ≤ (c : ℤ))))

/-- Embedding of `torch.cat((a, b), dim=1)` for same-height matrices. -/
def catDim1 (a b : List (List Bool)) : List (List Bool) :=
  List.zipWith (fun x y => x ++ y) a b

/-- Embedding of `build_attn_mask` (src/valle/models/utils.py): the
concatenation of `x_mask = cat(zeros(x,x), ones(x,y), dim=1)` and
`y_mask = cat(zeros(y,x), triu(ones(y,y), diagonal=1), dim=1)` along dim 0. -/
def build_attn_mask (x_len y_len : ℕ) : List (List Bool) :=
  catDim1 (zerosM x_len x_len) (onesM x_len y_len) ++
    catDim1 (zerosM y_len x_len) (triuOnes y_len 1)

/-- Embedding of `build_pad_mask` (src/valle/models/utils.py):
`max_len = lens.max()`, and entry `(i, j)` of the result is
`arange(max_len)[j] >= lens[i]`.  Lengths are int64, hence `List ℤ`;
`toNat` reflects that `arange` needs a non-negative size. -/
def build_pad_mask (lens : List ℤ) : List (List Bool) :=
  let max_len := (lens.foldr max 0).toNat
  lens.map (fun l => (List.range max_len).map (fun (j : ℕ) => decide (l ≤ (j : ℤ))))

/-- Embedding of `TopKLogitsWarper` (transformers) as called by
`top_k_top_p_filtering`: with `min_tokens_to_keep = 1`, the effective k is
`min (max k 1) row.length`; entries strictly below the k-th largest value
are replaced by `-inf`. -/
def topkFilter (k : ℕ) (row : List ℚ) : List EF :=
  let kk := min (max k 1) row.length
  let sorted := row.insertionSort (fun a b => b ≤ a)
  let thr := sorted.getD (kk - 1) 0
  row.map (fun x => if x < thr then EF.ninf else EF.val x)

/-- Flagging step of `TopPLogitsWarper` (transformers) as called by
`top_k_top_p_filtering`: sort ascending, flag the sorted positions whose
cumulative softmax probability is `≤ 1 - top_p`, keep the last
`min_tokens_to_keep = 1` positions, and return the original indices of the
flagged positions. -/
def toppRemoved (e : ℚ → ℚ) (p : ℚ) (row : List EF) : List ℕ :=
  let sorted := row.enum.insertionSort (fun a b => efLe a.2 b.2 = true)
  let n := sorted.length
  let z := (sorted.map (fun a => wE e a.2)).sum
  (List.range n).filterMap (fun i =>
    if ((sorted.take (i + 1)).map (fun a => wE e a.2)).sum / z ≤ 1 - p ∧ i + 1 < n
    then some (sorted.getD i (0, EF.ninf)).1 else none)

/-- Scatter step of `TopPLogitsWarper`: entries whose original index was
flagged for removal become `-inf`. -/
def toppFilter (e : ℚ → ℚ) (p : ℚ) (row : List EF) : List EF :=
  row.enum.map (fun a => if a.1 ∈ toppRemoved e p row then EF.ninf else a.2)

/-- Embedding of `transformers.generation.utils.top_k_top_p_filtering`:
top-k filtering only when `top_k > 0`, top-p filtering only when
`0 ≤ top_p ≤ 1`; out-of-range parameters silently skip the corresponding
filter. -/
def top_k_top_p_filtering (e : ℚ → ℚ) (top_k : ℤ) (top_p : ℚ) (row : List ℚ) : List EF :=
  let r1 := if 0 < top_k then topkFilter top_k.toNat row else row.map EF.val
  if 0 ≤ top_p ∧ top_p ≤ 1 then toppFilter e top_p r1 else r1

/-- Embedding of `F.softmax` on one filtered row: weight of each entry
divided by the row's total weight. -/
def softmaxW (e : ℚ → ℚ) (row : List EF) : List ℚ :=
  let z := (row.map (wE e)).sum
  row.map (fun x => wE e x / z)

/-- Embedding of `torch.multinomial(p, num_samples=1)` by inverse transform
on the draw `u`: the least index whose cumulative probability exceeds `u`
(falling back to the last index). -/
def multinomial1 (p : List ℚ) (u : ℚ) : ℕ :=
  match (List.range p.length).find? (fun i => decide (u < (p.take (i + 1)).sum)) with
  | some i => i
  | none => p.length - 1

/-- Embedding of `F.log_softmax` on one filtered row: `-inf` stays `-inf`,
a finite entry `q` becomes `q - log z` with `z` the row's total weight; the
function `lg` stands for the logarithm. -/
def log_softmaxW (e lg : ℚ → ℚ) (row : List EF) : List EF :=
  let z := (row.map (wE e)).sum
  row.map (fun x => match x with
    | EF.ninf => EF.ninf
    | EF.val q => EF.val (q - lg z))

/-- Embedding of the temperature step of `topk_sampling`: divide all logits
by the temperature when it is not `None` (exact for non-zero temperature). -/
def scaleTemp (temperature : Option ℚ) (logits : List (List ℚ)) : List (List ℚ) :=
  match temperature with
  | some t => logits.map (List.map (fun x => x / t))
  | none => logits

/-- Embedding of `topk_sampling` (src/valle/models/utils.py): temperature
scaling, `top_k_top_p_filtering`, multinomial sampling of one token per row
(`us` is the per-row uniform draw), and the gather
`logprobs[arange(B), rearrange(sampled, 'b 1 -> b')]` of the log-softmax of
the filtered logits at the sampled indices.  The first component is the
rank-2 `(B, 1)` sampled-token tensor, the second the rank-1 gathered
log-probability tensor. -/
def topk_sampling (e lg : ℚ → ℚ) (logits : List (List ℚ)) (top_k : ℤ) (tok_p : ℚ)
    (temperature : Option ℚ) (us : List ℚ) : List (List ℕ) × List EF :=
  let scaled := scaleTemp temperature logits
  let filtered := scaled.map (top_k_top_p_filtering e top_k tok_p)
  let sampled := List.zipWith (fun row u => [multinomial1 (softmaxW e row) u]) filtered us
  let logprobs := filtered.map (log_softmaxW e lg)
  let current := List.zipWith (fun lp s => lp.getD (s.headD 0) EF.ninf) logprobs sampled
  (sampled, current)

/-- Shape of a rank-1 tensor modelled as a flat list. -/
def tshape1 (t : List α) : List ℕ := [t.length]

/-- IEEE-754 float value extended with the non-finite outcomes that the
beam-score division can produce. -/
inductive FVal where
  | nan : FVal
  | ninf : FVal
  | val : ℚ → FVal
  | pinf : FVal
deriving DecidableEq, Repr

/-- IEEE float division of finite `x` by finite non-negative-or-any `y`:
division by zero yields `-inf`, `nan` or `+inf` according to the sign of
`x`, exact rational division otherwise. -/
def fdiv (x y : ℚ) : FVal :=
  if y = 0 then (if x < 0 then FVal.ninf else if x = 0 then FVal.nan else FVal.pinf)
  else FVal.val (x / y)

/-- Strict greater-than as used by `torch.argmax` when scanning for a new
maximum: `nan` compares greater than everything (torch propagates NaN as
the maximum), `+inf` above finite values, finite values above `-inf`. -/
def fgt : FVal → FVal → Bool
  | FVal.nan, FVal.nan => false
  | FVal.nan, _ => true
  | _, FVal.nan => false
  | FVal.pinf, FVal.pinf => false
  | FVal.pinf, _ => true
  | FVal.ninf, _ => false
  | FVal.val _, FVal.pinf => false
  | FVal.val a, FVal.val b => decide (b < a)
  | FVal.val _, FVal.ninf => true

/-- Scan keeping the first index attaining the running maximum
(`bi`, `bv` are the best index and value so far, `i` the index of the head
of the remaining list). -/
def argmaxAux : List FVal → ℕ → FVal → ℕ → ℕ × FVal
  | [], bi, bv, _ => (bi, bv)
  | h :: t, bi, bv, i =>
    if fgt h bv then argmaxAux t i h (i + 1) else argmaxAux t bi bv (i + 1)

/-- Embedding of `torch.argmax` on a rank-1 tensor: index of the first
occurrence of the maximum. -/
def argmaxF : List FVal → ℕ
  | [] => 0
  | h :: t => (argmaxAux t 0 h 1).1

/-- Scores `sum_logprobs / length ** length_penalty` of `get_best_beam`;
the float exponent of the source is modelled at non-negative integer
values, for which `length ** length_penalty` is exact (in particular
`0.0 ** 0.0 = 1.0` and `0.0 ** p = 0.0` for `p > 0`, as in IEEE). -/
def beamScores (sum_logprobs : List ℚ) (lengths : List ℕ) (length_penalty : ℕ) : List FVal :=
  List.zipWith (fun (s : ℚ) (l : ℕ) => fdiv s ((l : ℚ) ^ length_penalty)) sum_logprobs lengths

/-- Embedding of `get_best_beam` (src/valle/models/utils.py):
`length = sum(x != stop_token, dim=-1)`, `avg = sum_logprobs / length ** p`,
`best = x[argmax(avg)]`, and the result is `best[best != stop_token]`. -/
def get_best_beam (x : List (List ℤ)) (sum_logprobs : List ℚ) (stop_token : ℤ)
    (length_penalty : ℕ) : List ℤ :=
  let lengths := x.map (fun row => (row.filter (fun a => decide (a ≠ stop_token))).length)
  let avg := beamScores sum_logprobs lengths length_penalty
  let best := x.getD (argmaxF avg) []
  best.filter (fun a => decide (a ≠ stop_token))

/-- One example handed to the collate: its codes and text tokens.  Codes
are modelled by their time axis, the one whose length the collate compares
with the token length. -/
structure BatchItem where
  codes : List ℤ
  tokens : List ℤ
deriving DecidableEq, Repr

/-- Errors the collate call can raise: the runtime error raised by
`bool()` of a tensor with a number of elements different from one, and a
failed `assert` with its message. -/
inductive CollateError where
  | ambiguousBool : CollateError
  | assertionError : String → CollateError
deriving DecidableEq, Repr

/-- Embedding of `collate_list` (src/valle/collate.py): `pad_sequence`
(right-pad with 0 to the longest) and the int64 length vector. -/
def collate_list (xs : List (List ℤ)) : List (List ℤ) × List ℤ :=
  let maxLen := (xs.map List.length).foldr max 0
  (xs.map (fun v => v ++ List.replicate (maxLen - v.length) 0),
    xs.map (fun v => (v.length : ℤ)))

/-- Truthiness of a boolean tensor as used by `assert`: a one-element
tensor yields its element, any other size raises the "Boolean value of
Tensor ... is ambiguous" runtime error. -/
def tensorBool (bs : List Bool) : Except CollateError Bool :=
  match bs with
  | [b] => Except.ok b
  | _ => Except.error CollateError.ambiguousBool

/-- Batch returned by a successful collate call. -/
structure CollateOut where
  codes : List (List ℤ)
  codes_lens : List ℤ
  targets : List (List ℤ)
  tokens : List (List ℤ)
  tokens_lens : List ℤ
deriving DecidableEq, Repr

/-- Embedding of `ValleARCollate.__call__` (src/valle/collate.py): prepend
`bos_token` to each example's codes, append `eos_token` for the targets,
collate the three lists, then execute
`assert codes_lens > tokens_lens, 'Codes length must be greater than tokens length.'`
with tensor semantics: the elementwise `>` produces a boolean tensor whose
truthiness is taken by `assert`. -/
def valleARCollate (bos eos : ℤ) (batch : List BatchItem) : Except CollateError CollateOut :=
  let codes_list := batch.map (fun it => bos :: it.codes)
  let targets_list := batch.map (fun it => it.codes ++ [eos])
  let tokens_list := batch.map BatchItem.tokens
  let c := collate_list codes_list
  let tg := collate_list targets_list
  let tk := collate_list tokens_list
  match tensorBool (List.zipWith (fun a b => decide (b < a)) c.2 tk.2) with
  | Except.error err => Except.error err
  | Except.ok b =>
    if b then Except.ok ⟨c.1, c.2, tg.1, tk.1, tk.2⟩
    else Except.error (CollateError.assertionError
      "Codes length must be greater than tokens length.")

/-! Helper lemmas about the attention mask. -/

theorem catDim1_zeros_ones_length (x y : ℕ) :
    (catDim1 (zerosM x x) (onesM x y)).length = x := by
  simp only [catDim1, List.length_zipWith, zerosM, onesM, List.length_replicate, min_self]

theorem catDim1_zeros_triu_length (x y : ℕ) :
    (catDim1 (zerosM y x) (triuOnes y 1)).length = y := by
  simp only [catDim1, List.length_zipWith, zerosM, triuOnes, List.length_replicate,
    List.length_map, List.length_range, min_self]

theorem attn_length (x y : ℕ) : (build_attn_mask x y).length = x + y := by
  rw [build_attn_mask, List.length_append, catDim1_zeros_ones_length,
    catDim1_zeros_triu_length]

theorem attn_row_text {x y i : ℕ} (hi : i < x) :
    (build_attn_mask x y).getD i [] =
      List.replicate x false ++ List.replicate y true := by
  rw [build_attn_mask, List.getD_eq_getElem?_getD, List.getElem?_append,
    if_pos (by rw [catDim1_zeros_ones_length]; exact hi)]
  rw [catDim1, List.getElem?_zipWith]
  simp only [zerosM, onesM, List.getElem?_replicate, if_pos hi]
  rfl

theorem attn_row_audio {x y i : ℕ} (hx : x ≤ i) (hi : i < x + y) :
    (build_attn_mask x y).getD i [] =
      List.replicate x false ++
        (List.range y).map (fun (c : ℕ) => decide (((i - x : ℕ) : ℤ) + 1 ≤ (c : ℤ))) := by
  have hlt : i - x < y := by omega
  rw [build_attn_mask, List.getD_eq_getElem?_getD, List.getElem?_append,
    if_neg (by rw [catDim1_zeros_ones_length]; omega), catDim1_zeros_ones_length]
  rw [catDim1, List.getElem?_zipWith]
  simp only [zerosM, triuOnes, List.getElem?_replicate, if_pos hlt,
    List.getElem?_map, List.getElem?_range hlt]
  rfl

theorem attn_entry (x y i j : ℕ) (hi : i < x + y) (hj : j < x + y) :
    ((build_attn_mask x y).getD i []).getD j false =
      if i < x then decide (x ≤ j) else decide (x ≤ j ∧ i < j) := by
  by_cases hix : i < x
  · rw [attn_row_text hix, if_pos hix, List.getD_eq_getElem?_getD,
      List.getElem?_append, List.length_replicate]
    by_cases hjx : j < x
    · simp only [List.getElem?_replicate, if_pos hjx, Option.getD_some]
      symm
      rw [decide_eq_false_iff_not]
      omega
    · have hjy : j - x < y := by omega
      rw [if_neg hjx]
      simp only [List.getElem?_replicate, if_pos hjy, Option.getD_some]
      symm
      rw [decide_eq_true_eq]
      omega
  · have hx : x ≤ i := by omega
    rw [attn_row_audio hx hi, if_neg hix, List.getD_eq_getElem?_getD,
      List.getElem?_append, List.length_replicate]
    by_cases hjx : j < x
    · simp only [List.getElem?_replicate, if_pos hjx, Option.getD_some]
      symm
      rw [decide_eq_false_iff_not]
      omega
    · have hjy : j - x < y := by omega
      rw [if_neg hjx]
      simp only [List.getElem?_map, List.getElem?_range hjy, Option.map_some',
        Option.getD_some]
      rw [decide_eq_decide]
      omega

theorem attn_row_length {x y i : ℕ} (hi : i < x + y) :
    ((build_attn_mask x y).getD i []).length = x + y := by
  by_cases hix : i < x
  · rw [attn_row_text hix]
    simp
  · rw [attn_row_audio (by omega) hi]
    simp

/-- C1: for all non-negative integers `x_len` and `y_len`,
`build_attn_mask (x_len, y_len)` is a boolean square grid of size
`x_len + y_len` whose upper-right `x_len × y_len` block is entirely true,
whose upper-left `x_len × x_len` block is entirely false, whose lower-left
`y_len × x_len` block is entirely false, and whose lower-right
`y_len × y_len` block is true exactly at the strictly-upper-triangular
positions (column offset greater than row offset, diagonal false),
including the degenerate cases `x_len = 0` and `y_len = 0`. -/
theorem build_attn_mask_block_structure (x_len y_len : ℕ) :
    (build_attn_mask x_len y_len).length = x_len + y_len ∧
    (∀ row ∈ build_attn_mask x_len y_len, row.length = x_len + y_len) ∧
    (∀ i j, i < x_len → j < y_len →
      ((build_attn_mask x_len y_len).getD i []).getD (x_len + j) false = true) ∧
    (∀ i j, i < x_len → j < x_len →
      ((build_attn_mask x_len y_len).getD i []).getD j false = false) ∧
    (∀ i j, i < y_len → j < x_len →
      ((build_attn_mask x_len y_len).getD (x_len + i) []).getD j false = false) ∧
    (∀ i j, i < y_len → j < y_len →
      (((build_attn_mask x_len y_len).getD (x_len + i) []).getD (x_len + j) false = true ↔
        i < j)) := by
  refine ⟨attn_length x_len y_len, ?_, ?_, ?_, ?_, ?_⟩
  · intro row hrow
    obtain ⟨i, hilen, hrow⟩ := List.mem_iff_getElem.mp hrow
    rw [attn_length] at hilen
    have : (build_attn_mask x_len y_len).getD i [] = row := by
      rw [List.getD_eq_getElem?_getD, List.getElem?_eq_getElem (by rw [attn_length]; exact hilen),
        Option.getD_some, hrow]
    rw [← this]
    exact attn_row_length hilen
  · intro i j hi hj
    rw [attn_entry x_len y_len i (x_len + j) (by omega) (by omega), if_pos hi]
    simp only [decide_eq_true_eq]
    omega
  · intro i j hi hj
    rw [attn_entry x_len y_len i j (by omega) (by omega), if_pos hi]
    simp only [decide_eq_false_iff_not]
    omega
  · intro i j hi hj
    rw [attn_entry x_len y_len (x_len + i) j (by omega) (by omega), if_neg (by omega)]
    simp only [decide_eq_false_iff_not]
    omega
  · intro i j hi hj
    rw [attn_entry x_len y_len (x_len + i) (x_len + j) (by omega) (by omega), if_neg (by omega)]
    simp only [decide_eq_true_eq]
    omega

/-- Witness for C1 at `x_len = 1`, `y_len = 2`: the lower-right block entry
at row offset 0, column offset 1 is true. -/
theorem build_attn_mask_block_structure_witness :
    ((build_attn_mask 1 2).getD (1 + 0) []).getD (1 + 1) false = true :=
  ((build_attn_mask_block_structure 1 2).2.2.2.2.2 0 1 (by decide) (by decide)).mpr
    (by decide)

/-- C10: every row of `build_attn_mask` has a contiguous allowed region:
the false (allowed) entries of row `i` form a prefix of the row — for a
text row (`i < x_len`) exactly columns `0..x_len-1`, for an audio row
exactly columns `0..i` — and consequently if entry `(i, j)` is true then
so is entry `(i, j')` for every `j' ≥ j`. -/
theorem build_attn_mask_row_contiguous (x_len y_len i : ℕ) (hi : i < x_len + y_len) :
    (∀ j, j < x_len + y_len →
      (i < x_len →
        (((build_attn_mask x_len y_len).getD i []).getD j false = false ↔ j < x_len)) ∧
      (x_len ≤ i →
        (((build_attn_mask x_len y_len).getD i []).getD j false = false ↔ j ≤ i))) ∧
    (∀ j j', j ≤ j' → j' < x_len + y_len →
      ((build_attn_mask x_len y_len).getD i []).getD j false = true →
      ((build_attn_mask x_len y_len).getD i []).getD j' false = true) := by
  constructor
  · intro j hj
    constructor
    · intro hix
      rw [attn_entry x_len y_len i j hi hj, if_pos hix]
      simp only [decide_eq_false_iff_not]
      omega
    · intro hix
      rw [attn_entry x_len y_len i j hi hj, if_neg (by omega)]
      simp only [decide_eq_false_iff_not]
      omega
  · intro j j' hjj hj' htrue
    rw [attn_entry x_len y_len i j hi (by omega)] at htrue
    rw [attn_entry x_len y_len i j' hi hj']
    by_cases hix : i < x_len
    · rw [if_pos hix] at htrue ⊢
      simp only [decide_eq_true_eq] at htrue ⊢
      omega
    · rw [if_neg hix] at htrue ⊢
      simp only [decide_eq_true_eq] at htrue ⊢
      omega

/-- Witness for C10 at `x_len = 1`, `y_len = 2`, row 1 (audio row with
offset 0): entry at column 2 is true, propagated from itself. -/
theorem build_attn_mask_row_contiguous_witness :
    ((build_attn_mask 1 2).getD 1 []).getD 2 false = true :=
  (build_attn_mask_row_contiguous 1 2 1 (by decide)).2 2 2 (by decide) (by decide)
    (by decide)

theorem foldr_max_ge (lens : List ℤ) : ∀ l ∈ lens, l ≤ lens.foldr max 0 := by
  induction lens with
  | nil => intro l hl; cases hl
  | cons a t ih =>
    intro l hl
    rcases List.mem_cons.mp hl with h | h
    · subst h
      exact le_max_left _ _
    · exact le_trans (ih l h) (le_max_right _ _)

theorem foldr_max_zero_or_mem (lens : List ℤ) :
    lens.foldr max 0 = 0 ∨ lens.foldr max 0 ∈ lens := by
  induction lens with
  | nil => exact Or.inl rfl
  | cons a t ih =>
    simp only [List.foldr_cons]
    rcases le_total a (t.foldr max 0) with h | h
    · rw [max_eq_right h]
      rcases ih with h0 | hmem
      · exact Or.inl h0
      · exact Or.inr (List.mem_cons_of_mem _ hmem)
    · rw [max_eq_left h]
      exact Or.inr (List.mem_cons_self _ _)

theorem foldr_max_eq {lens : List ℤ} {m : ℤ} (hm : m ∈ lens)
    (hub : ∀ l ∈ lens, l ≤ m) (hpos : 0 < m) : lens.foldr max 0 = m := by
  have h1 : m ≤ lens.foldr max 0 := foldr_max_ge lens m hm
  rcases foldr_max_zero_or_mem lens with h0 | hmem
  · omega
  · have := hub _ hmem
    omega

/-- C2: for every non-empty vector of positive integer lengths with maximum
`m`, `build_pad_mask` returns a boolean grid of shape
`(lens.length, m)` whose entry `(i, j)` is true if and only if
`j ≥ lens[i]`. -/
theorem build_pad_mask_correct (lens : List ℤ) (m : ℤ)
    (hm : m ∈ lens) (hub : ∀ l ∈ lens, l ≤ m) (hpos : ∀ l ∈ lens, 0 < l) :
    (build_pad_mask lens).length = lens.length ∧
    (∀ row ∈ build_pad_mask lens, row.length = m.toNat) ∧
    (∀ i j, i < lens.length → j < m.toNat →
      (((build_pad_mask lens).getD i []).getD j false = true ↔ lens.getD i 0 ≤ (j : ℤ))) := by
  have hmax : lens.foldr max 0 = m := foldr_max_eq hm hub (hpos m hm)
  refine ⟨?_, ?_, ?_⟩
  · simp [build_pad_mask]
  · intro row hrow
    simp only [build_pad_mask, hmax, List.mem_map] at hrow
    obtain ⟨l, _, hrow⟩ := hrow
    rw [← hrow]
    simp
  · intro i j hi hj
    simp only [build_pad_mask, hmax, List.getD_eq_getElem?_getD, List.getElem?_map,
      List.getElem?_eq_getElem hi, Option.map_some', Option.getD_some,
      List.getElem?_range hj, decide_eq_true_eq]

/-- Witness for C2 at `lens = [2, 1]`: the grid has 2 rows of width 2 and
entry `(1, 1)` is true because `1 ≥ lens[1] = 1`. -/
theorem build_pad_mask_correct_witness :
    ((build_pad_mask [2, 1]).getD 1 []).getD 1 false = true :=
  ((build_pad_mask_correct [2, 1] 2 (by decide) (by decide) (by decide)).2.2 1 1
    (by decide) (by decide)).mpr (by decide)

/-! Helper lemmas for indexing mapped and zipped lists. -/

theorem getD_map_of_lt {α β : Type} (f : α → β) (l : List α) {i : ℕ} (hi : i < l.length)
    (da : α) (db : β) : (l.map f).getD i db = f (l.getD i da) := by
  rw [List.getD_eq_getElem?_getD, List.getElem?_map, List.getElem?_eq_getElem hi,
    Option.map_some', Option.getD_some, List.getD_eq_getElem?_getD,
    List.getElem?_eq_getElem hi, Option.getD_some]

theorem getD_zipWith_of_lt {α β γ : Type} (f : α → β → γ) (as : List α) (bs : List β)
    {i : ℕ} (ha : i < as.length) (hb : i < bs.length) (da : α) (db : β) (dc : γ) :
    (List.zipWith f as bs).getD i dc = f (as.getD i da) (bs.getD i db) := by
  rw [List.getD_eq_getElem?_getD, List.getElem?_zipWith, List.getElem?_eq_getElem ha,
    List.getElem?_eq_getElem hb]
  simp only [Option.getD_some, List.getD_eq_getElem?_getD, List.getElem?_eq_getElem ha,
    List.getElem?_eq_getElem hb]

theorem scaleTemp_length (temperature : Option ℚ) (logits : List (List ℚ)) :
    (scaleTemp temperature logits).length = logits.length := by
  cases temperature <;> simp [scaleTemp]

/-- C3: for every input and every row index `b`, the log-probability
returned by `topk_sampling` is the log-softmax of the filtered (post
temperature scaling and top-k/top-p filtering) logits of row `b`,
evaluated at the token index sampled for that row. -/
theorem topk_sampling_logprob_consistent (e lg : ℚ → ℚ) (logits : List (List ℚ))
    (top_k : ℤ) (tok_p : ℚ) (temperature : Option ℚ) (us : List ℚ) (b : ℕ)
    (hb : b < logits.length) (hus : us.length = logits.length) :
    (topk_sampling e lg logits top_k tok_p temperature us).2.getD b EF.ninf =
      (log_softmaxW e lg (top_k_top_p_filtering e top_k tok_p
        ((scaleTemp temperature logits).getD b []))).getD
        (((topk_sampling e lg logits top_k tok_p temperature us).1.getD b []).headD 0)
        EF.ninf := by
  have hsl : (scaleTemp temperature logits).length = logits.length :=
    scaleTemp_length temperature logits
  simp only [topk_sampling]
  rw [getD_zipWith_of_lt _ _ _ (by simp [hsl]; omega) (by simp [hsl, hus]; omega) [] [],
    getD_map_of_lt _ _ (by simp [hsl]; omega) [],
    getD_zipWith_of_lt _ _ _ (by simp [hsl]; omega) (by omega) [] 0,
    getD_map_of_lt _ _ (by simp [hsl]; omega) []]

/-- Witness for C3 at a concrete input: one row `[0, 1]`, `top_k = 1`,
`top_p = 1`, temperature 1, draw `1/2`, with `exp` and `log` instantiated
as the constant functions 1 and 0. -/
theorem topk_sampling_logprob_consistent_witness :
    (topk_sampling (fun _ => 1) (fun _ => 0) [[0, 1]] 1 1 (some 1) [1/2]).2.getD 0 EF.ninf =
      (log_softmaxW (fun _ => 1) (fun _ => 0) (top_k_top_p_filtering (fun _ => 1) 1 1
        ((scaleTemp (some 1) [[0, 1]]).getD 0 []))).getD
        (((topk_sampling (fun _ => 1) (fun _ => 0) [[0, 1]] 1 1 (some 1) [1/2]).1.getD 0
          []).headD 0) EF.ninf :=
  topk_sampling_logprob_consistent (fun _ => 1) (fun _ => 0) [[0, 1]] 1 1 (some 1) [1/2] 0
    (by decide) (by decide)

/-! Helper lemmas about non-negative rational lists and softmax weights. -/

theorem all_zero_of_sum_zero {l : List ℚ} (h : ∀ x ∈ l, 0 ≤ x) (hs : l.sum = 0) :
    ∀ x ∈ l, x = 0 := by
  induction l with
  | nil => intro x hx; cases hx
  | cons a t ih =>
    have ha : 0 ≤ a := h a (List.mem_cons_self _ _)
    have ht : ∀ x ∈ t, 0 ≤ x := fun x hx => h x (List.mem_cons_of_mem _ hx)
    have hts : 0 ≤ t.sum := List.sum_nonneg ht
    rw [List.sum_cons] at hs
    intro x hx
    rcases List.mem_cons.mp hx with hx | hx
    · rw [hx]
      linarith
    · exact ih ht (by linarith) x hx

theorem take_sum_ge_getElem {l : List ℚ} (h : ∀ x ∈ l, 0 ≤ x) {i : ℕ} (hi : i < l.length) :
    l[i] ≤ (l.take (i + 1)).sum := by
  rw [List.sum_take_succ l i hi]
  have h0 : 0 ≤ (l.take i).sum :=
    List.sum_nonneg (fun x hx => h x (List.take_subset i l hx))
  linarith

theorem sum_single_nonzero {l : List ℚ} {j : ℕ} (hj : j < l.length)
    (h : ∀ k, (hk : k < l.length) → k ≠ j → l[k] = 0) : l.sum = l[j] := by
  induction l generalizing j with
  | nil => cases hj
  | cons a t ih =>
    rw [List.sum_cons]
    cases j with
    | zero =>
      have ht : t.sum = 0 := by
        apply List.sum_eq_zero
        intro x hx
        obtain ⟨k, hk, hkx⟩ := List.mem_iff_getElem.mp hx
        have := h (k + 1) (by simpa using hk) (by omega)
        simpa [hkx] using this
      simp [ht]
    | succ j' =>
      have ha : a = 0 := h 0 (by simp) (by omega)
      have hj' : j' < t.length := by simpa using hj
      rw [ha, zero_add]
      have := ih hj' (fun k hk hkj => by
        have := h (k + 1) (by simpa using hk) (by omega)
        simpa using this)
      simpa using this

theorem wE_nonneg (e : ℚ → ℚ) (hE : ∀ q, 0 < e q) (x : EF) : 0 ≤ wE e x := by
  cases x with
  | ninf => simp [wE]
  | val q => exact le_of_lt (hE q)

theorem wE_eq_zero (e : ℚ → ℚ) (hE : ∀ q, 0 < e q) {x : EF} (h : wE e x = 0) :
    x = EF.ninf := by
  cases x with
  | ninf => rfl
  | val q =>
    simp only [wE] at h
    exact absurd h (ne_of_gt (hE q))

theorem find?_range_eq_some {p : ℕ → Bool} {n j : ℕ} (hj : j < n) (hpj : p j = true)
    (hlt : ∀ i, i < j → p i = false) : (List.range n).find? p = some j := by
  have hn : n = (j + 1) + (n - (j + 1)) := by omega
  rw [hn, List.range_add, List.find?_append, ← Nat.succ_eq_add_one, List.range_succ,
    List.find?_append]
  have h1 : (List.range j).find? p = none := List.find?_eq_none.mpr (fun x hx => by
    simp only [List.mem_range] at hx
    simp [hlt x hx])
  rw [h1]
  simp [List.find?_cons, hpj]

theorem toppRemoved_mem_ninf (e : ℚ → ℚ) (hE : ∀ q, 0 < e q) (row : List EF) {k : ℕ}
    (hk : k ∈ toppRemoved e 1 row) : row[k]? = some EF.ninf := by
  set S := row.enum.insertionSort (fun a b => efLe a.2 b.2 = true) with hS
  have hperm : S.Perm row.enum := List.perm_insertionSort _ _
  simp only [toppRemoved, ← hS, List.mem_filterMap, List.mem_range] at hk
  obtain ⟨i, hi, hif⟩ := hk
  split_ifs at hif with hc
  · have hkeq : (S.getD i (0, EF.ninf)).1 = k := Option.some_injective _ hif
    have hSi : S.getD i (0, EF.ninf) = S[i] := by
      rw [List.getD_eq_getElem?_getD, List.getElem?_eq_getElem hi, Option.getD_some]
    have hwnn : ∀ x ∈ S.map (fun a => wE e a.2), 0 ≤ x := by
      intro x hx
      obtain ⟨a, _, rfl⟩ := List.mem_map.mp hx
      exact wE_nonneg e hE a.2
    have hiw : i < (S.map (fun a => wE e a.2)).length := by
      rw [List.length_map]
      exact hi
    have hwi : (S.map (fun a => wE e a.2))[i] = wE e S[i].2 := List.getElem_map _
    have hps : (S.map (fun a => wE e a.2))[i] ≤
        (((S.take (i + 1)).map (fun a => wE e a.2)).sum) := by
      rw [List.map_take]
      exact take_sum_ge_getElem hwnn hiw
    have hzero : wE e S[i].2 = 0 := by
      by_contra h0
      have hpos : 0 < wE e S[i].2 :=
        lt_of_le_of_ne (wE_nonneg e hE S[i].2) (Ne.symm h0)
      have hsum : 0 < ((S.take (i + 1)).map (fun a => wE e a.2)).sum := by
        rw [hwi] at hps
        linarith
      have hznn : 0 ≤ (S.map (fun a => wE e a.2)).sum := List.sum_nonneg hwnn
      rcases eq_or_lt_of_le hznn with hz | hz
      · have := all_zero_of_sum_zero hwnn hz.symm _ (List.getElem_mem hiw)
        rw [hwi] at this
        exact h0 this
      · have hdiv : 0 < ((S.take (i + 1)).map (fun a => wE e a.2)).sum /
            (S.map (fun a => wE e a.2)).sum := div_pos hsum hz
        have := hc.1
        linarith
    have hmem : S[i] ∈ row.enum := hperm.subset (List.getElem_mem hi)
    have hval : S[i] = (k, EF.ninf) := by
      have h2 := wE_eq_zero e hE hzero
      rw [← hkeq, hSi]
      exact Prod.ext rfl h2
    rw [hval] at hmem
    exact List.mem_enum_iff_getElem?.mp hmem

theorem toppFilter_one (e : ℚ → ℚ) (hE : ∀ q, 0 < e q) (row : List EF) :
    toppFilter e 1 row = row := by
  apply List.ext_getElem?
  intro k
  simp only [toppFilter, List.getElem?_map, List.getElem?_enum, Option.map_map]
  cases hrk : row[k]? with
  | none => rfl
  | some v =>
    simp only [Option.map_some', Function.comp_apply]
    by_cases hm : k ∈ toppRemoved e 1 row
    · have := toppRemoved_mem_ninf e hE row hm
      rw [hrk] at this
      have hv : v = EF.ninf := Option.some_injective _ this
      simp [hm, hv]
    · simp [hm]

theorem topkFilter_one_getElem (row : List ℚ) {j : ℕ} (hj : j < row.length)
    (hmax : ∀ i, (hi : i < row.length) → i ≠ j → row[i] < row[j]) :
    ∀ k, k < row.length →
      (topkFilter 1 row)[k]? = some (if k = j then EF.val row[j] else EF.ninf) := by
  haveI : IsTotal ℚ (fun a b => b ≤ a) := ⟨fun a b => le_total b a⟩
  haveI : IsTrans ℚ (fun a b => b ≤ a) := ⟨fun a b c h1 h2 => le_trans h2 h1⟩
  set S := row.insertionSort (fun a b => b ≤ a) with hS
  have hperm : S.Perm row := List.perm_insertionSort _ _
  have hsorted : List.Sorted (fun a b => b ≤ a) S := List.sorted_insertionSort _ _
  have hSlen : S.length = row.length := hperm.length_eq
  have hSne : S ≠ [] := by
    intro h
    rw [h] at hSlen
    simp only [List.length_nil] at hSlen
    omega
  obtain ⟨s0, t, hcons⟩ := List.exists_cons_of_ne_nil hSne
  have hmaxel : ∀ x ∈ row, x ≤ s0 := by
    intro x hx
    have hxS : x ∈ S := hperm.mem_iff.mpr hx
    rw [hcons] at hxS hsorted
    rcases List.mem_cons.mp hxS with h | h
    · rw [h]
    · exact (List.sorted_cons.mp hsorted).1 x h
  have hs0row : s0 ∈ row := hperm.mem_iff.mp (by rw [hcons]; exact List.mem_cons_self _ _)
  have hs0 : s0 = row[j] := by
    obtain ⟨i, hi, hieq⟩ := List.mem_iff_getElem.mp hs0row
    by_cases hij : i = j
    · subst hij
      exact hieq.symm
    · have h1 := hmax i hi hij
      have h2 := hmaxel row[j] (List.getElem_mem hj)
      rw [hieq] at h1
      linarith
  have hthr : topkFilter 1 row =
      row.map (fun x => if x < row[j] then EF.ninf else EF.val x) := by
    simp only [topkFilter, ← hS]
    have hkk : min (max 1 1) row.length = 1 := by
      have : (1 : ℕ) ≤ row.length := by omega
      simp [this]
    rw [hkk, hcons]
    simp [hs0]
  intro k hk
  rw [hthr, List.getElem?_map, List.getElem?_eq_getElem hk, Option.map_some']
  by_cases hkj : k = j
  · subst hkj
    rw [if_neg (lt_irrefl _), if_pos rfl]
  · rw [if_pos (hmax k hk hkj), if_neg hkj]

theorem softmaxW_single_getElem (e : ℚ → ℚ) (hE : ∀ q, 0 < e q) (F : List EF) {j : ℕ}
    {q : ℚ} (hj : j < F.length) (hFj : F[j] = EF.val q)
    (hFk : ∀ k, (hk : k < F.length) → k ≠ j → F[k] = EF.ninf) :
    ∀ k, k < F.length → (softmaxW e F)[k]? = some (if k = j then 1 else 0) := by
  have hlen : (F.map (wE e)).length = F.length := List.length_map _ _
  have hz : (F.map (wE e)).sum = e q := by
    have hj' : j < (F.map (wE e)).length := by
      rw [hlen]
      exact hj
    have hs := sum_single_nonzero hj' (fun k hk hkj => by
      rw [List.getElem_map, hFk k (by rw [hlen] at hk; exact hk) hkj]
      rfl)
    rw [hs, List.getElem_map, hFj]
    rfl
  intro k hk
  simp only [softmaxW]
  rw [List.getElem?_map, List.getElem?_eq_getElem hk, Option.map_some', hz]
  congr 1
  by_cases hkj : k = j
  · subst hkj
    rw [hFj, if_pos rfl]
    exact div_self (ne_of_gt (hE q))
  · rw [hFk k hk hkj, if_neg hkj]
    simp [wE]

theorem multinomial1_indicator (p : List ℚ) {j : ℕ} (hj : j < p.length)
    (hpk : ∀ k, k < p.length → p[k]? = some (if k = j then 1 else 0))
    {u : ℚ} (hu0 : 0 ≤ u) (hu1 : u < 1) : multinomial1 p u = j := by
  have hgetel : ∀ k, (hk : k < p.length) → p[k] = if k = j then 1 else 0 := by
    intro k hk
    have := hpk k hk
    rw [List.getElem?_eq_getElem hk] at this
    exact Option.some_inj.mp this
  have hfind : (List.range p.length).find?
      (fun i => decide (u < (p.take (i + 1)).sum)) = some j := by
    apply find?_range_eq_some hj
    · have hlen : (p.take (j + 1)).length = j + 1 := by
        rw [List.length_take]
        omega
      have hj' : j < (p.take (j + 1)).length := by omega
      have hsum : (p.take (j + 1)).sum = 1 := by
        have hs := sum_single_nonzero hj' (fun k hk hkj => by
          rw [List.getElem_take]
          rw [hgetel k (by rw [hlen] at hk; omega), if_neg hkj])
        rw [hs, List.getElem_take, hgetel j hj, if_pos rfl]
      rw [hsum]
      simpa using hu1
    · intro i hij
      have hsum : (p.take (i + 1)).sum = 0 := by
        apply List.sum_eq_zero
        intro x hx
        obtain ⟨k, hk, hkx⟩ := List.mem_iff_getElem.mp hx
        have hki : k < i + 1 := by
          have := List.length_take (i + 1) p
          omega
        have hkp : k < p.length := by
          have := List.length_take (i + 1) p
          omega
        rw [List.getElem_take] at hkx
        rw [← hkx, hgetel k hkp, if_neg (by omega)]
      rw [hsum]
      simpa using hu0
  simp only [multinomial1, hfind]

theorem filtered_row_greedy (e : ℚ → ℚ) (hE : ∀ q, 0 < e q) (row : List ℚ) {j : ℕ}
    (hj : j < row.length)
    (hmax : ∀ i, (hi : i < row.length) → i ≠ j → row[i] < row[j])
    {u : ℚ} (hu0 : 0 ≤ u) (hu1 : u < 1) :
    multinomial1 (softmaxW e (top_k_top_p_filtering e 1 1 row)) u = j := by
  have hfil : top_k_top_p_filtering e 1 1 row = topkFilter 1 row := by
    simp only [top_k_top_p_filtering]
    rw [if_pos (by norm_num), if_pos (by norm_num)]
    rw [toppFilter_one e hE]
    norm_num
  rw [hfil]
  have hFlen : (topkFilter 1 row).length = row.length := by
    simp [topkFilter]
  have hjF : j < (topkFilter 1 row).length := by omega
  have hFj : (topkFilter 1 row)[j] = EF.val row[j] := by
    have := topkFilter_one_getElem row hj hmax j hj
    rw [List.getElem?_eq_getElem hjF, if_pos rfl] at this
    exact Option.some_inj.mp this
  have hFk : ∀ k, (hk : k < (topkFilter 1 row).length) → k ≠ j →
      (topkFilter 1 row)[k] = EF.ninf := by
    intro k hk hkj
    have hk' : k < row.length := by omega
    have := topkFilter_one_getElem row hj hmax k hk'
    rw [List.getElem?_eq_getElem hk, if_neg hkj] at this
    exact Option.some_inj.mp this
  have hslen : (softmaxW e (topkFilter 1 row)).length = (topkFilter 1 row).length := by
    simp [softmaxW]
  apply multinomial1_indicator _ (by omega : j < (softmaxW e (topkFilter 1 row)).length)
    _ hu0 hu1
  intro k hk
  exact softmaxW_single_getElem e hE _ hjF hFj hFk k (by omega)

/-- C7: with `top_k = 1` and temperature 1, for every row whose maximal
logit is unique, `topk_sampling` samples exactly the index of that row's
highest logit, regardless of the random draw (here for any uniform draw
`u ∈ [0, 1)` and any positive exponential model `e`). -/
theorem topk_sampling_topk1_greedy (e lg : ℚ → ℚ) (logits : List (List ℚ)) (us : List ℚ)
    (b j : ℕ) (hE : ∀ q, 0 < e q) (hb : b < logits.length)
    (hus : us.length = logits.length)
    (hu0 : 0 ≤ us.getD b 0) (hu1 : us.getD b 0 < 1)
    (hj : j < (logits.getD b []).length)
    (hmax : ∀ i, (hi : i < (logits.getD b []).length) → i ≠ j →
      (logits.getD b [])[i] < (logits.getD b [])[j]) :
    (topk_sampling e lg logits 1 1 (some 1) us).1.getD b [] = [j] := by
  have hone : (fun (x : ℚ) => x / 1) = id := funext fun x => div_one x
  have hscale : scaleTemp (some 1) logits = logits := by
    simp [scaleTemp, hone]
  simp only [topk_sampling, hscale]
  rw [getD_zipWith_of_lt _ _ _ (by rw [List.length_map]; exact hb) (by omega) [] 0]
  rw [getD_map_of_lt _ _ hb []]
  congr 1
  exact filtered_row_greedy e hE _ hj hmax hu0 hu1

/-- Witness for C7: row `[0, 1]` has its unique maximum at index 1, and the
sample with draw `1/2` is index 1. -/
theorem topk_sampling_topk1_greedy_witness :
    (topk_sampling (fun _ => 1) (fun _ => 0) [[0, 1]] 1 1 (some 1) [1/2]).1.getD 0 [] =
      [1] :=
  topk_sampling_topk1_greedy (fun _ => 1) (fun _ => 0) [[0, 1]] [1/2] 0 1
    (fun _ => one_pos) (by decide) (by decide)
    (by simp) (by norm_num [List.getD])
    (by simp)
    (by
      intro i hi hij
      have hi2 : i < 2 := by simpa using hi
      interval_cases i
      · show (0 : ℚ) < 1
        norm_num
      · exact absurd rfl hij)

/-- C9 counterexample: at the concrete invalid parameters `top_k = 0` and
`top_p = 2`, `topk_sampling` does not fail: the filtering step passes the
logits through unchanged and a sampled token is returned. -/
theorem topk_sampling_invalid_params_counterexample :
    top_k_top_p_filtering (fun _ => 1) 0 2 [3] = [EF.val 3] ∧
    (topk_sampling (fun _ => 1) (fun _ => 0) [[3]] 0 2 (some 1) [0]).1 = [[0]] := by
  constructor
  · norm_num [top_k_top_p_filtering]
  · norm_num [topk_sampling, scaleTemp, top_k_top_p_filtering, softmaxW, multinomial1,
      wE, List.find?]

/-- C9 amended: `topk_sampling` performs no parameter validation: when
`top_k ≤ 0` the top-k filter is skipped and when `top_p` lies outside
`[0, 1]` the top-p filter is skipped, so the logits pass through the
filtering step unchanged and a token is sampled rather than an error
raised. -/
theorem top_k_top_p_filtering_skips_invalid (e : ℚ → ℚ) (top_k : ℤ) (top_p : ℚ)
    (row : List ℚ) (hk : top_k ≤ 0) (hp : top_p < 0 ∨ 1 < top_p) :
    top_k_top_p_filtering e top_k top_p row = row.map EF.val := by
  simp only [top_k_top_p_filtering]
  rw [if_neg (by rintro ⟨h1, h2⟩; rcases hp with h | h <;> linarith),
    if_neg (by omega)]

/-- Witness for the amended C9 at `top_k = -1`, `top_p = 2`. -/
theorem top_k_top_p_filtering_skips_invalid_witness :
    top_k_top_p_filtering (fun _ => 1) (-1) 2 [3] = [EF.val 3] := by
  rw [top_k_top_p_filtering_skips_invalid (fun _ => 1) (-1) 2 [3] (by norm_num)
    (Or.inr (by norm_num))]
  rfl

/-- C6: evaluating `topk_sampling` at a batch of two rows: the sampled
token tensor does have shape `(2, 1)`, but the returned log-probabilities
form a rank-1 tensor of shape `(2,)`, not `(2, 1)` as the claim and the
function's docstring state (the gather
`logprobs[arange(B), rearrange(sampled, 'b 1 -> b')]` drops the second
axis). -/
theorem topk_sampling_logprob_rank1 :
    (topk_sampling (fun _ => 1) (fun _ => 0) [[0, 1], [0, 1]] 1 1 (some 1) [0, 0]).1.length
        = 2 ∧
    (∀ s ∈ (topk_sampling (fun _ => 1) (fun _ => 0) [[0, 1], [0, 1]] 1 1 (some 1)
      [0, 0]).1, s.length = 1) ∧
    tshape1 (topk_sampling (fun _ => 1) (fun _ => 0) [[0, 1], [0, 1]] 1 1 (some 1)
      [0, 0]).2 = [2] ∧
    tshape1 (topk_sampling (fun _ => 1) (fun _ => 0) [[0, 1], [0, 1]] 1 1 (some 1)
      [0, 0]).2 ≠ [2, 1] := by
  exact ⟨rfl, by decide, rfl, by decide⟩

/-! Helper lemmas about the argmax scan ordering. -/

theorem fgt_irrefl (a : FVal) : fgt a a = false := by
  cases a <;> simp [fgt]

theorem fgt_trans {a b c : FVal} (h1 : fgt a b = true) (h2 : fgt b c = true) :
    fgt a c = true := by
  cases a <;> cases b <;> cases c <;> simp_all [fgt] <;> linarith

theorem fgt_false_trans {a b c : FVal} (h1 : fgt a b = false) (h2 : fgt b c = false) :
    fgt a c = false := by
  cases a <;> cases b <;> cases c <;> simp_all [fgt] <;> linarith

theorem fgt_val_ninf (q : ℚ) : fgt (FVal.val q) FVal.ninf = true := rfl

theorem argmaxAux_result (l : List FVal) :
    ∀ (bi i : ℕ) (bv : FVal),
      argmaxAux l bi bv i = (bi, bv) ∨
        ∃ k, ∃ (hk : k < l.length), argmaxAux l bi bv i = (i + k, l[k]) := by
  induction l with
  | nil =>
    intro bi i bv
    exact Or.inl rfl
  | cons h t ih =>
    intro bi i bv
    by_cases hgt : fgt h bv = true
    · simp only [argmaxAux, hgt, if_true]
      rcases ih i (i + 1) h with h0 | ⟨k, hk, heq⟩
      · refine Or.inr ⟨0, by simp, ?_⟩
        simpa using h0
      · refine Or.inr ⟨k + 1, by simp only [List.length_cons]; omega, ?_⟩
        rw [heq]
        simp only [List.getElem_cons_succ]
        have h3 : i + 1 + k = i + (k + 1) := by omega
        rw [h3]
    · simp only [argmaxAux]
      rw [if_neg hgt]
      rcases ih bi (i + 1) bv with h0 | ⟨k, hk, heq⟩
      · exact Or.inl h0
      · refine Or.inr ⟨k + 1, by simp only [List.length_cons]; omega, ?_⟩
        rw [heq]
        simp only [List.getElem_cons_succ]
        have h3 : i + 1 + k = i + (k + 1) := by omega
        rw [h3]

theorem argmaxAux_is_max (l : List FVal) :
    ∀ (bi i : ℕ) (bv : FVal),
      fgt bv (argmaxAux l bi bv i).2 = false ∧
        ∀ x ∈ l, fgt x (argmaxAux l bi bv i).2 = false := by
  induction l with
  | nil =>
    intro bi i bv
    exact ⟨fgt_irrefl bv, fun x hx => absurd hx (List.not_mem_nil x)⟩
  | cons h t ih =>
    intro bi i bv
    by_cases hgt : fgt h bv = true
    · simp only [argmaxAux, hgt, if_true]
      obtain ⟨ih1, ih2⟩ := ih i (i + 1) h
      have hbv : fgt bv (argmaxAux t i h (i + 1)).2 = false := by
        by_contra hbv
        rw [Bool.not_eq_false] at hbv
        have := fgt_trans hgt hbv
        rw [ih1] at this
        cases this
      refine ⟨hbv, fun x hx => ?_⟩
      rcases List.mem_cons.mp hx with hx | hx
      · rw [hx]
        exact ih1
      · exact ih2 x hx
    · simp only [argmaxAux, hgt, if_false]
      rw [Bool.not_eq_true] at hgt
      obtain ⟨ih1, ih2⟩ := ih bi (i + 1) bv
      refine ⟨ih1, fun x hx => ?_⟩
      rcases List.mem_cons.mp hx with hx | hx
      · rw [hx]
        exact fgt_false_trans hgt ih1
      · exact ih2 x hx

theorem argmaxF_lt_and_max (l : List FVal) (hne : l ≠ []) :
    argmaxF l < l.length ∧
      (l.getD (argmaxF l) FVal.nan = (argmaxAux (l.tail) 0 (l.headD FVal.nan) 1).2) ∧
      ∀ x ∈ l, fgt x (l.getD (argmaxF l) FVal.nan) = false := by
  obtain ⟨h, t, rfl⟩ := List.exists_cons_of_ne_nil hne
  simp only [argmaxF, List.headD_cons, List.tail_cons]
  rcases argmaxAux_result t 0 1 h with h0 | ⟨k, hk, heq⟩
  · rw [h0]
    obtain ⟨ih1, ih2⟩ := argmaxAux_is_max t 0 1 h
    rw [h0] at ih1 ih2
    refine ⟨by simp, by simp [h0], fun x hx => ?_⟩
    rcases List.mem_cons.mp hx with hx | hx
    · rw [hx]
      simpa using ih1
    · simpa using ih2 x hx
  · rw [heq]
    obtain ⟨ih1, ih2⟩ := argmaxAux_is_max t 0 1 h
    rw [heq] at ih1 ih2
    have hlt : 1 + k < (h :: t).length := by
      simp only [List.length_cons]
      omega
    have hget : (h :: t).getD (1 + k) FVal.nan = t[k] := by
      have h1k : 1 + k = k + 1 := by omega
      rw [h1k, List.getD_eq_getElem?_getD, List.getElem?_cons_succ,
        List.getElem?_eq_getElem hk, Option.getD_some]
    refine ⟨hlt, by rw [hget], fun x hx => ?_⟩
    rw [hget]
    rcases List.mem_cons.mp hx with hx | hx
    · rw [hx]
      simpa using ih1
    · simpa using ih2 x hx

/-- C4 counterexample: `get_best_beam` contains no guard and no error
path.  With `length_penalty = 0` the degenerate all-stop-token row `[0]`
scores `-1 / 0 ** 0 = -1 / 1 = -1`, beats the completed row `[5]` (score
`-2`), and is selected; and on an input whose rows are all degenerate the
function returns the empty sequence instead of failing. -/
theorem get_best_beam_degenerate_counterexample :
    argmaxF (beamScores [-1, -2] [0, 1] 0) = 0 ∧
    get_best_beam [[0], [5]] [-1, -2] 0 0 = [] ∧
    get_best_beam [[0]] [-1] 0 1 = [] := by
  have h1 : beamScores [-1, -2] [0, 1] 0 = [FVal.val (-1), FVal.val (-2)] := by
    simp only [beamScores, List.zipWith_cons_cons, List.zipWith_nil_right, fdiv]
    norm_num
  have h2 : beamScores [-1] [0] 1 = [FVal.ninf] := by
    simp only [beamScores, List.zipWith_cons_cons, List.zipWith_nil_right, fdiv]
    norm_num
  have h3 : argmaxF [FVal.val (-1), FVal.val (-2)] = 0 := by
    simp only [argmaxF, argmaxAux, fgt]
    norm_num
  refine ⟨by rw [h1, h3], ?_, ?_⟩
  · have hlens : [[0], [5]].map
        (fun row => (row.filter (fun a => decide (a ≠ (0 : ℤ)))).length) = [0, 1] := by
      decide
    simp only [get_best_beam, hlens, h1, h3]
    decide
  · have hlens : [[0]].map
        (fun row => (row.filter (fun a => decide (a ≠ (0 : ℤ)))).length) = [0] := by
      decide
    simp only [get_best_beam, hlens, h2]
    decide

/-- C4 amended: the code contains no explicit guard and no error path, but
when `length_penalty > 0` and the cumulative log-probability is negative,
IEEE division by `0 ** length_penalty = 0` gives a degenerate all-stop
row the score `-inf`, and since `argmax` returns an index attaining the
maximal score, such a row is not selected whenever any row with at least
one non-stop token exists; with `length_penalty = 0`, or when all rows are
degenerate, a degenerate row can be selected and the (empty) filtered
sequence is returned rather than an error being raised. -/
theorem get_best_beam_degenerate_not_selected (x : List (List ℤ))
    (sum_logprobs : List ℚ) (stop_token : ℤ) (length_penalty : ℕ) (i j : ℕ)
    (hlen : sum_logprobs.length = x.length)
    (hi : i < x.length)
    (hrow : ∀ a ∈ x.getD i [], a = stop_token)
    (hsi : sum_logprobs.getD i 0 < 0)
    (hp : 0 < length_penalty)
    (hj : j < x.length) (hjrow : ∃ a ∈ x.getD j [], a ≠ stop_token) :
    (beamScores sum_logprobs
        (x.map (fun row => (row.filter (fun a => decide (a ≠ stop_token))).length))
        length_penalty).getD i FVal.nan = FVal.ninf ∧
    argmaxF (beamScores sum_logprobs
        (x.map (fun row => (row.filter (fun a => decide (a ≠ stop_token))).length))
        length_penalty) ≠ i := by
  set lens := x.map (fun row => (row.filter (fun a => decide (a ≠ stop_token))).length)
    with hlens
  set scores := beamScores sum_logprobs lens length_penalty with hscores
  have hlenslen : lens.length = x.length := by
    rw [hlens, List.length_map]
  have hscoreslen : scores.length = x.length := by
    rw [hscores, beamScores, List.length_zipWith, hlen, hlenslen]
    omega
  have hleni : lens.getD i 0 = 0 := by
    rw [hlens, getD_map_of_lt _ _ hi []]
    rw [List.length_eq_zero, List.filter_eq_nil_iff]
    intro a ha
    rw [hrow a ha]
    simp
  have hsi' : scores.getD i FVal.nan = FVal.ninf := by
    rw [hscores, beamScores,
      getD_zipWith_of_lt _ _ _ (by omega) (by omega) 0 0, hleni]
    have hz : ((0 : ℕ) : ℚ) ^ length_penalty = 0 := by
      rw [Nat.cast_zero]
      exact zero_pow (by omega)
    rw [hz]
    simp only [fdiv]
    rw [if_pos trivial, if_pos hsi]
  refine ⟨hsi', ?_⟩
  have hlenj : 0 < lens.getD j 0 := by
    obtain ⟨a, haj, hane⟩ := hjrow
    rw [hlens, getD_map_of_lt _ _ hj []]
    have : a ∈ (x.getD j []).filter (fun a => decide (a ≠ stop_token)) :=
      List.mem_filter.mpr ⟨haj, by simpa using hane⟩
    have := List.length_pos.mpr (List.ne_nil_of_mem this)
    omega
  have hsj : scores.getD j FVal.nan =
      FVal.val (sum_logprobs.getD j 0 / (lens.getD j 0 : ℚ) ^ length_penalty) := by
    rw [hscores, beamScores,
      getD_zipWith_of_lt _ _ _ (by omega) (by omega) 0 0]
    simp only [fdiv]
    rw [if_neg (by positivity)]
  have hne : scores ≠ [] := by
    intro h
    rw [h] at hscoreslen
    simp only [List.length_nil] at hscoreslen
    omega
  obtain ⟨hlt, _, hmax⟩ := argmaxF_lt_and_max scores hne
  intro heq
  have hvmem : scores.getD j FVal.nan ∈ scores := by
    rw [List.getD_eq_getElem?_getD, List.getElem?_eq_getElem (by omega), Option.getD_some]
    exact List.getElem_mem _
  have := hmax _ hvmem
  rw [heq, hsi', hsj] at this
  simp [fgt] at this

/-- Witness for the amended C4: row 0 of `[[0], [5]]` is all-stop, its
score with penalty 1 is `-inf`, and it is not the argmax. -/
theorem get_best_beam_degenerate_not_selected_witness :
    (beamScores [-1, -2] ([[0], [5]].map
        (fun row => (row.filter (fun a => decide (a ≠ (0 : ℤ)))).length)) 1).getD 0
      FVal.nan = FVal.ninf ∧
    argmaxF (beamScores [-1, -2] ([[0], [5]].map
        (fun row => (row.filter (fun a => decide (a ≠ (0 : ℤ)))).length)) 1) ≠ 0 :=
  get_best_beam_degenerate_not_selected [[0], [5]] [-1, -2] 0 1 0 1 (by decide)
    (by decide) (by decide) (by norm_num [List.getD]) (by decide) (by decide)
    ⟨5, by decide, by decide⟩

/-- C8: the sequence returned by `get_best_beam` never contains
`stop_token`: it is exactly the selected (argmax-scored) row with every
occurrence of `stop_token` removed, preserving the order of the remaining
tokens. -/
theorem get_best_beam_trims_stop (x : List (List ℤ)) (sum_logprobs : List ℚ)
    (stop_token : ℤ) (length_penalty : ℕ) :
    stop_token ∉ get_best_beam x sum_logprobs stop_token length_penalty ∧
    get_best_beam x sum_logprobs stop_token length_penalty =
      (x.getD (argmaxF (beamScores sum_logprobs
          (x.map (fun row => (row.filter (fun a => decide (a ≠ stop_token))).length))
          length_penalty)) []).filter (fun a => decide (a ≠ stop_token)) := by
  constructor
  · intro hmem
    have := (List.mem_filter.mp hmem).2
    simp at this
  · rfl

/-- C5: evaluating the collate embedding.  A batch of two examples that
each satisfy the length invariant (codes length 3 > tokens length 1)
raises the tensor-truthiness runtime error ("Boolean value of Tensor with
more than one element is ambiguous") instead of succeeding, because
`assert codes_lens > tokens_lens` takes the truth value of a two-element
boolean tensor.  A batch of one valid example succeeds, and a batch of one
invalid example raises the descriptive assertion, so the intended
per-example check only ever runs for batches of size one. -/
theorem valleARCollate_batch_truthiness :
    valleARCollate 7 8 [⟨[1, 2], [9]⟩, ⟨[3, 4], [9]⟩] =
      Except.error CollateError.ambiguousBool ∧
    valleARCollate 7 8 [⟨[1, 2], [9]⟩] =
      Except.ok ⟨[[7, 1, 2]], [3], [[1, 2, 8]], [[9]], [1]⟩ ∧
    valleARCollate 7 8 [⟨[], [9, 9]⟩] =
      Except.error (CollateError.assertionError
        "Codes length must be greater than tokens length.") :=
  ⟨rfl, rfl, rfl⟩

/-- Witness for C8: the beam `[0, 5, 0]` with `stop_token = 0` yields an
output not containing the stop token. -/
theorem get_best_beam_trims_stop_witness :
    (0 : ℤ) ∉ get_best_beam [[0, 5, 0]] [-1] 0 1 :=
  (get_best_beam_trims_stop [[0, 5, 0]] [-1] 0 1).1
